import Mathlib

/-! 2D feature tracking: ratio-test match selection and Harris non-maximum suppression.

A shallow embedding of the two hand-written algorithms of
`src/matching2D_Student.cpp`:

* the `SEL_KNN` branch of `matchDescriptors` (lines 34-49), the distance-ratio
  filter over the k = 2 candidate lists produced by the library matcher;
* the raster loop of `detKeypointsHarris` (lines 171-215), thresholding of the
  normalised corner response followed by greedy non-maximum suppression.

Modelling conventions.

* `float` and `double` values are exact rationals (`ℚ`); rounding, infinities
  and NaN are outside the model.
* `std::vector` is `List`; `push_back` appends at the end; a vector passed by
  reference and mutated is an explicit input/output pair.
* `std::vector::operator[]` is unchecked in C++.  An index beyond the size has
  no defined result; the model stops there and records the content the output
  vector had at that moment.
* `size_t` arithmetic is arithmetic modulo `2 ^ 64`.
* `cv::KeyPoint::overlap` belongs to the vision library, not to the repository:
  the model takes it as a parameter `overlap`, and every general result holds
  for every overlap function.  Concrete inputs are evaluated with
  `circleOverlap`, an instance that decides `overlap > 0` exactly.
* The calls of the library matcher (`knnMatch`) and of the corner detector
  (`cornerHarris`, `normalize`) are inputs: `knn_matches` and `dst_norm`.
* `scanTraced` runs the raster loop with a record, for each stored keypoint, of
  the raster index and the kind of its most recent write.  The record is ghost
  state: `scanTraced_erase` shows that dropping it gives `detKeypointsHarris`.
-/

namespace Matching2D

/-! ## Data model -/

/-- The library record `cv::DMatch`. -/
structure DMatch where
  queryIdx : Int
  trainIdx : Int
  imgIdx : Int
  distance : ℚ
deriving DecidableEq

/-- The library record `cv::Point2f`. -/
structure Point2f where
  x : ℚ
  y : ℚ
deriving DecidableEq

/-- The library record `cv::KeyPoint`. -/
structure KeyPoint where
  pt : Point2f
  size : ℚ
  angle : ℚ
  response : ℚ
  octave : Int
  class_id : Int
deriving DecidableEq

/-- The default constructor `cv::KeyPoint()`. -/
def KeyPoint.default : KeyPoint :=
  { pt := { x := 0, y := 0 }, size := 0, angle := -1, response := 0, octave := 0, class_id := -1 }

/-- A single-channel `CV_32FC1` matrix: `rows`, `cols` and the accessor `at<float>(j, i)`. -/
structure Mat where
  rows : Nat
  cols : Nat
  atFloat : Nat → Nat → ℚ

/-! ## `matchDescriptors`, branch `SEL_KNN` -/

/-- Line 39: `double minDescDistRatio = 0.8`. -/
def minDescDistRatio : ℚ := 8 / 10

/-- The number of values of `size_t`. -/
def sizeModulus : Nat := 2 ^ 64

/-- Subtraction of two `size_t` values (line 48), wrapping modulo `2 ^ 64`. -/
def sizeSub (a b : Nat) : Nat :=
  (a % sizeModulus + (sizeModulus - b % sizeModulus)) % sizeModulus

/-- Outcome of the loop of lines 40-47 over `knn_matches`. -/
inductive KnnRun where
  /-- The iterator reached `knn_matches.end()`; the output vector holds `matchesOut`. -/
  | finished (matchesOut : List DMatch)
  /-- An entry with fewer than two elements was indexed at line 43 (no defined
  result); the output vector held `matchesOut` at that moment. -/
  | outOfRange (matchesOut : List DMatch)
deriving DecidableEq

/-- Lines 40-47: the loop over `knn_matches`, pushing `(*it)[0]` to the output
vector when `(*it)[0].distance < minDescDistRatio * (*it)[1].distance`. -/
def knnLoop : List (List DMatch) → List DMatch → KnnRun
  | [], matchesOut => KnnRun.finished matchesOut
  | it :: rest, matchesOut =>
    match it[0]?, it[1]? with
    | some m0, some m1 =>
      if m0.distance < minDescDistRatio * m1.distance then
        knnLoop rest (matchesOut ++ [m0])
      else
        knnLoop rest matchesOut
    | _, _ => KnnRun.outOfRange matchesOut

/-- Outcome of the `SEL_KNN` branch. -/
inductive KnnResult where
  /-- The branch ran to its end: the output vector and the number printed after
  `# keypoints removed = `. -/
  | returned (matchesOut : List DMatch) (removed : Nat)
  /-- The loop indexed an entry beyond its size; nothing is printed. -/
  | undefinedAccess (matchesOut : List DMatch)
deriving DecidableEq

/-- Lines 37-48, with `knn_matches` as filled by the library call of line 38 and
`matchesOut` the content of the caller's vector on entry. -/
def matchDescriptorsKNN (knn_matches : List (List DMatch)) (matchesOut : List DMatch) : KnnResult :=
  match knnLoop knn_matches matchesOut with
  | KnnRun.finished ms => KnnResult.returned ms (sizeSub knn_matches.length ms.length)
  | KnnRun.outOfRange ms => KnnResult.undefinedAccess ms

/-- The ratio test of line 43 on a (best, second) pair. -/
def passesRatioTest (p : DMatch × DMatch) : Bool :=
  decide (p.1.distance < minDescDistRatio * p.2.distance)

/-- The k = 2 candidate list holding `best` then `second`. -/
def pairToList (p : DMatch × DMatch) : List DMatch := [p.1, p.2]

/-- The best matches of the pairs that pass the ratio test, in input order. -/
def keptBest (pairs : List (DMatch × DMatch)) : List DMatch :=
  (pairs.filter passesRatioTest).map Prod.fst

/-- A match of query descriptor `q` with train descriptor `t` at distance `d`. -/
def matchAt (q t : Int) (d : ℚ) : DMatch :=
  { queryIdx := q, trainIdx := t, imgIdx := 0, distance := d }

/-! ## `detKeypointsHarris`, raster loop -/

/-- Line 146: `int apertureSize = 3`. -/
def apertureSize : Int := 3

/-- Line 147: `int minResponse = 100`. -/
def minResponse : Int := 100

/-- Line 171: `double maxOverlap = 0.0`. -/
def maxOverlap : ℚ := 0

/-- The conversion `(int)` of a `float` (line 177): truncation towards zero.
The conversion is defined in C++ only for values within the range of `int`; the
response surface is normalised to 0..255 (line 164), where this definition is
the conversion exactly. -/
def castInt (v : ℚ) : Int := if 0 ≤ v then ⌊v⌋ else ⌈v⌉

/-- Lines 177-192: the candidate built for pixel `(j, i)`, if its truncated
response exceeds `minResponse`.  The position `cv::Point2f(i, j)` is held as the
exact indices, which is what the `float` fields hold for indices below `2 ^ 24`. -/
def newKeyPointAt (dst_norm : Mat) (j i : Nat) : Option KeyPoint :=
  let response : Int := castInt (dst_norm.atFloat j i)
  if response > minResponse then
    some { KeyPoint.default with
      pt := { x := (i : ℚ), y := (j : ℚ) }
      size := ((2 * apertureSize : Int) : ℚ)
      response := (response : ℚ) }
  else
    none

/-- Lines 196-208: the loop over the stored keypoints, from the iterator position
holding the list argument on, with the current value of `bOverlap`.  Returns the
final `bOverlap` and the content of the scanned part after the loop. -/
def nmsLoop (overlap : KeyPoint → KeyPoint → ℚ) (newKeyPoint : KeyPoint) :
    List KeyPoint → Bool → Bool × List KeyPoint
  | [], bOverlap => (bOverlap, [])
  | it :: rest, bOverlap =>
    if overlap newKeyPoint it > maxOverlap then
      if newKeyPoint.response > it.response then
        (true, newKeyPoint :: rest)
      else
        ((nmsLoop overlap newKeyPoint rest true).1, it :: (nmsLoop overlap newKeyPoint rest true).2)
    else
      ((nmsLoop overlap newKeyPoint rest bOverlap).1,
        it :: (nmsLoop overlap newKeyPoint rest bOverlap).2)

/-- Lines 195-212: non-maximum suppression of one candidate against `keypoints`. -/
def nmsStep (overlap : KeyPoint → KeyPoint → ℚ) (keypoints : List KeyPoint)
    (newKeyPoint : KeyPoint) : List KeyPoint :=
  if (nmsLoop overlap newKeyPoint keypoints false).1 then
    (nmsLoop overlap newKeyPoint keypoints false).2
  else
    (nmsLoop overlap newKeyPoint keypoints false).2 ++ [newKeyPoint]

/-- Lines 177-213: the body of the inner loop for pixel `(j, i)`. -/
def pixelStep (overlap : KeyPoint → KeyPoint → ℚ) (dst_norm : Mat) (j : Nat)
    (keypoints : List KeyPoint) (i : Nat) : List KeyPoint :=
  match newKeyPointAt dst_norm j i with
  | some newKeyPoint => nmsStep overlap keypoints newKeyPoint
  | none => keypoints

/-- Lines 174-214: the loop over the columns of row `j`. -/
def rowLoop (overlap : KeyPoint → KeyPoint → ℚ) (dst_norm : Mat)
    (keypoints : List KeyPoint) (j : Nat) : List KeyPoint :=
  (List.range dst_norm.cols).foldl (pixelStep overlap dst_norm j) keypoints

/-- Lines 172-215: the raster loop of `detKeypointsHarris` over the normalised
response `dst_norm`, with `keypoints` the content of the caller's vector on entry. -/
def detKeypointsHarris (overlap : KeyPoint → KeyPoint → ℚ) (dst_norm : Mat)
    (keypoints : List KeyPoint) : List KeyPoint :=
  (List.range dst_norm.rows).foldl (rowLoop overlap dst_norm) keypoints

/-- Modelled from the spec: `cv::KeyPoint::overlap` is library code outside the
repository; the specification describes it as intersection area over union area
of the two circular footprints of diameter `size`.  This instance is exact where
that ratio is rational (one footprint inside the other, or disjoint footprints);
where the two circles cross, the exact value needs `arccos`, and the instance
gives a positive rational lower bound of it, so that `overlap > 0` is decided
exactly.  It instantiates the parameter `overlap` at concrete inputs. -/
def circleOverlap (kp1 kp2 : KeyPoint) : ℚ :=
  let a := kp1.size / 2
  let b := kp2.size / 2
  let c2 := (kp1.pt.x - kp2.pt.x) ^ 2 + (kp1.pt.y - kp2.pt.y) ^ 2
  if c2 ≤ (max a b - min a b) ^ 2 then
    min (a ^ 2) (b ^ 2) / max (a ^ 2) (b ^ 2)
  else if c2 < (a + b) ^ 2 then
    ((a + b) ^ 2 - c2) ^ 2 / (16 * (a + b) ^ 2 * (a ^ 2 + b ^ 2))
  else
    0

/-- A Harris keypoint at pixel column `i`, row `j`, with the given response. -/
def harrisKeyPoint (i j : Nat) (response : Int) : KeyPoint :=
  { KeyPoint.default with
    pt := { x := (i : ℚ), y := (j : ℚ) }
    size := ((2 * apertureSize : Int) : ℚ)
    response := (response : ℚ) }

/-- One NMS step as the three-case rule: replace the first stored keypoint that
both overlaps the candidate beyond `maxOverlap` and has a smaller response;
otherwise leave the sequence unchanged when some stored keypoint overlaps the
candidate beyond `maxOverlap`; otherwise append the candidate. -/
def nmsStepRule (overlap : KeyPoint → KeyPoint → ℚ) (keypoints : List KeyPoint)
    (newKeyPoint : KeyPoint) : List KeyPoint :=
  match keypoints.findIdx?
      (fun e => decide (overlap newKeyPoint e > maxOverlap ∧ e.response < newKeyPoint.response)) with
  | some idx => keypoints.set idx newKeyPoint
  | none =>
    if keypoints.any (fun e => decide (overlap newKeyPoint e > maxOverlap)) then keypoints
    else keypoints ++ [newKeyPoint]

/-- A response surface of 2 rows and 7 columns with three pixels above the
threshold: 200 at column 0 of row 0, 110 at column 6 of row 0, 150 at column 3
of row 1; all other pixels are 0. -/
def surfaceStrongWeakMid : Mat :=
  { rows := 2
    cols := 7
    atFloat := fun j i =>
      if j = 0 ∧ i = 0 then 200
      else if j = 0 ∧ i = 6 then 110
      else if j = 1 ∧ i = 3 then 150
      else 0 }

/-- A response surface of 2 rows and 3 columns, all zeros. -/
def surfaceZeros : Mat :=
  { rows := 2, cols := 3, atFloat := fun _ _ => 0 }

/-- A response surface of one pixel with the given value. -/
def surfaceOnePixel (v : ℚ) : Mat :=
  { rows := 1, cols := 1, atFloat := fun _ _ => v }

/-! ## The raster scan as a sequence of pixel steps, with a record of the writes -/

/-- The pixels `(j, i)` of the surface in the order of the two nested loops of
lines 172-174: row by row, left to right. -/
def rasterOrder (dst_norm : Mat) : List (Nat × Nat) :=
  (List.range dst_norm.rows).flatMap
    (fun j => (List.range dst_norm.cols).map (fun i => (j, i)))

/-- The keypoint sequence after the first `n` pixels of the raster scan, started
from the empty sequence. -/
def scanFirst (overlap : KeyPoint → KeyPoint → ℚ) (dst_norm : Mat) (n : Nat) : List KeyPoint :=
  ((rasterOrder dst_norm).take n).foldl
    (fun keypoints p => pixelStep overlap dst_norm p.1 keypoints p.2) []

/-- A stored keypoint with the record of its most recent write: the raster index
of the pixel whose candidate was written, and whether the write was a
`push_back` (`appended = true`) or an in-place replacement. -/
structure Written where
  kp : KeyPoint
  time : Nat
  appended : Bool
deriving DecidableEq

/-- The loop `nmsLoop` of lines 196-208 on recorded keypoints: a replacement at
pixel index `time` is recorded as such. -/
def nmsLoopTraced (overlap : KeyPoint → KeyPoint → ℚ) (newKeyPoint : KeyPoint) (time : Nat) :
    List Written → Bool → Bool × List Written
  | [], bOverlap => (bOverlap, [])
  | it :: rest, bOverlap =>
    if overlap newKeyPoint it.kp > maxOverlap then
      if newKeyPoint.response > it.kp.response then
        (true, { kp := newKeyPoint, time := time, appended := false } :: rest)
      else
        ((nmsLoopTraced overlap newKeyPoint time rest true).1,
          it :: (nmsLoopTraced overlap newKeyPoint time rest true).2)
    else
      ((nmsLoopTraced overlap newKeyPoint time rest bOverlap).1,
        it :: (nmsLoopTraced overlap newKeyPoint time rest bOverlap).2)

/-- The step `nmsStep` of lines 195-212 on recorded keypoints: a `push_back` at
pixel index `time` is recorded as such. -/
def nmsStepTraced (overlap : KeyPoint → KeyPoint → ℚ) (keypoints : List Written)
    (newKeyPoint : KeyPoint) (time : Nat) : List Written :=
  if (nmsLoopTraced overlap newKeyPoint time keypoints false).1 then
    (nmsLoopTraced overlap newKeyPoint time keypoints false).2
  else
    (nmsLoopTraced overlap newKeyPoint time keypoints false).2
      ++ [{ kp := newKeyPoint, time := time, appended := true }]

/-- The pixel step `pixelStep` on recorded keypoints, for the pixel `p = (j, i)` of
raster index `time`. -/
def pixelStepTraced (overlap : KeyPoint → KeyPoint → ℚ) (dst_norm : Mat)
    (keypoints : List Written) (time : Nat) (p : Nat × Nat) : List Written :=
  match newKeyPointAt dst_norm p.1 p.2 with
  | some newKeyPoint => nmsStepTraced overlap keypoints newKeyPoint time
  | none => keypoints

/-- The recorded scan over the pixels `ps`, the first of which has raster index
`time`. -/
def scanTracedFrom (overlap : KeyPoint → KeyPoint → ℚ) (dst_norm : Mat) :
    List (Nat × Nat) → Nat → List Written → List Written
  | [], _, keypoints => keypoints
  | p :: rest, time, keypoints =>
    scanTracedFrom overlap dst_norm rest (time + 1)
      (pixelStepTraced overlap dst_norm keypoints time p)

/-- The recorded raster scan of the whole surface, started from the empty
sequence. -/
def scanTraced (overlap : KeyPoint → KeyPoint → ℚ) (dst_norm : Mat) : List Written :=
  scanTracedFrom overlap dst_norm (rasterOrder dst_norm) 0 []

/-- The invariant of the recorded scan before the pixel of raster index `t`:
every record is older than `t`, and an appended keypoint does not overlap,
beyond `maxOverlap`, any keypoint whose most recent write is older than its own. -/
def TracedInv (overlap : KeyPoint → KeyPoint → ℚ) (t : Nat) (ws : List Written) : Prop :=
  (∀ w ∈ ws, w.time < t)
    ∧ ∀ a ∈ ws, ∀ b ∈ ws, a.time < b.time → b.appended = true →
        overlap b.kp a.kp ≤ maxOverlap

/-- A response surface of 2 rows and 7 columns with three pixels above the
threshold: 110 at column 0 of row 0, 110 at column 6 of row 0, 150 at column 3
of row 1; all other pixels are 0. -/
def surfaceWeakWeakMid : Mat :=
  { rows := 2
    cols := 7
    atFloat := fun j i =>
      if j = 0 ∧ i = 0 then 110
      else if j = 0 ∧ i = 6 then 110
      else if j = 1 ∧ i = 3 then 150
      else 0 }

/-! ## Lemmas on the ratio-test loop -/

theorem knnLoop_pairs (pairs : List (DMatch × DMatch)) (matchesOut : List DMatch) :
    knnLoop (pairs.map pairToList) matchesOut = KnnRun.finished (matchesOut ++ keptBest pairs) := by
  induction pairs generalizing matchesOut with
  | nil => simp [knnLoop, keptBest]
  | cons p ps ih =>
    by_cases h : p.1.distance < minDescDistRatio * p.2.distance
    · simp [knnLoop, pairToList, keptBest, passesRatioTest, h, ih, List.filter_cons]
    · simp [knnLoop, pairToList, keptBest, passesRatioTest, h, ih, List.filter_cons]

theorem knnLoop_short_entry (e : List DMatch) (post : List (List DMatch))
    (matchesOut : List DMatch) (he : e.length < 2) :
    knnLoop (e :: post) matchesOut = KnnRun.outOfRange matchesOut := by
  match e, he with
  | [], _ => simp [knnLoop]
  | [m], _ => simp [knnLoop]

theorem knnLoop_pairs_then (pairs : List (DMatch × DMatch)) (tail : List (List DMatch))
    (matchesOut : List DMatch) :
    knnLoop (pairs.map pairToList ++ tail) matchesOut
      = knnLoop tail (matchesOut ++ keptBest pairs) := by
  induction pairs generalizing matchesOut with
  | nil => simp [keptBest]
  | cons p ps ih =>
    by_cases h : p.1.distance < minDescDistRatio * p.2.distance
    · simp [knnLoop, pairToList, keptBest, passesRatioTest, h, List.filter_cons, ih]
    · simp [knnLoop, pairToList, keptBest, passesRatioTest, h, List.filter_cons, ih]

theorem keptBest_length_le (pairs : List (DMatch × DMatch)) :
    (keptBest pairs).length ≤ pairs.length := by
  simp only [keptBest, List.length_map]
  exact List.length_filter_le _ _

theorem keptBest_length_add (pairs : List (DMatch × DMatch)) :
    (keptBest pairs).length + (pairs.filter (fun p => !passesRatioTest p)).length
      = pairs.length := by
  induction pairs with
  | nil => simp [keptBest]
  | cons p ps ih =>
    simp only [keptBest, List.length_map] at ih ⊢
    by_cases h : passesRatioTest p = true
    · simp [List.filter_cons, h]; omega
    · simp [List.filter_cons, h]; omega

theorem sizeSub_of_le (a b : Nat) (hb : b ≤ a) (ha : a < sizeModulus) : sizeSub a b = a - b := by
  unfold sizeSub
  have hb2 : b < sizeModulus := Nat.lt_of_le_of_lt hb ha
  rw [Nat.mod_eq_of_lt ha, Nat.mod_eq_of_lt hb2]
  have h1 : a + (sizeModulus - b) = (a - b) + sizeModulus := by omega
  rw [h1, Nat.add_mod_right]
  exact Nat.mod_eq_of_lt (by omega)

/-! ## Lemmas on one NMS step -/

theorem nmsLoop_fst (overlap : KeyPoint → KeyPoint → ℚ) (c : KeyPoint) (ks : List KeyPoint)
    (b : Bool) :
    (nmsLoop overlap c ks b).1
      = (b || ks.any (fun e => decide (overlap c e > maxOverlap))) := by
  induction ks generalizing b with
  | nil => simp [nmsLoop]
  | cons e rest ih =>
    by_cases h1 : overlap c e > maxOverlap
    · by_cases h2 : c.response > e.response
      · simp [nmsLoop, h1, h2]
      · simp [nmsLoop, h1, h2, ih]
    · simp [nmsLoop, h1, ih]

theorem nmsLoop_snd_unbeaten (overlap : KeyPoint → KeyPoint → ℚ) (c : KeyPoint)
    (ks : List KeyPoint) (b : Bool)
    (h : ∀ e ∈ ks, ¬ (overlap c e > maxOverlap ∧ c.response > e.response)) :
    (nmsLoop overlap c ks b).2 = ks := by
  induction ks generalizing b with
  | nil => simp [nmsLoop]
  | cons e rest ih =>
    have he := h e (List.mem_cons_self _ _)
    have hrest : ∀ x ∈ rest, ¬ (overlap c x > maxOverlap ∧ c.response > x.response) :=
      fun x hx => h x (List.mem_cons_of_mem _ hx)
    by_cases h1 : overlap c e > maxOverlap
    · have h2 : ¬ c.response > e.response := fun h2 => he ⟨h1, h2⟩
      simp [nmsLoop, h1, h2, ih _ hrest]
    · simp [nmsLoop, h1, ih _ hrest]

theorem nmsLoop_snd_beaten (overlap : KeyPoint → KeyPoint → ℚ) (c : KeyPoint)
    (pre : List KeyPoint) (e : KeyPoint) (post : List KeyPoint) (b : Bool)
    (hpre : ∀ x ∈ pre, ¬ (overlap c x > maxOverlap ∧ c.response > x.response))
    (h1 : overlap c e > maxOverlap) (h2 : c.response > e.response) :
    (nmsLoop overlap c (pre ++ e :: post) b).2 = pre ++ c :: post := by
  induction pre generalizing b with
  | nil => simp [nmsLoop, h1, h2]
  | cons x rest ih =>
    have hx := hpre x (List.mem_cons_self _ _)
    have hrest : ∀ y ∈ rest, ¬ (overlap c y > maxOverlap ∧ c.response > y.response) :=
      fun y hy => hpre y (List.mem_cons_of_mem _ hy)
    by_cases g1 : overlap c x > maxOverlap
    · have g2 : ¬ c.response > x.response := fun g2 => hx ⟨g1, g2⟩
      simp [nmsLoop, g1, g2, ih _ hrest]
    · simp [nmsLoop, g1, ih _ hrest]

theorem nmsLoop_snd_rule (overlap : KeyPoint → KeyPoint → ℚ) (c : KeyPoint)
    (ks : List KeyPoint) (b : Bool) :
    (nmsLoop overlap c ks b).2
      = match ks.findIdx?
            (fun e => decide (overlap c e > maxOverlap ∧ e.response < c.response)) with
        | some idx => ks.set idx c
        | none => ks := by
  induction ks generalizing b with
  | nil => simp [nmsLoop]
  | cons e rest ih =>
    by_cases h1 : overlap c e > maxOverlap
    · by_cases h2 : c.response > e.response
      · have h2' : e.response < c.response := h2
        simp [nmsLoop, h1, h2, h2', List.findIdx?_cons]
      · have h2' : ¬ e.response < c.response := h2
        simp only [nmsLoop, h1, h2, if_true, if_false, List.findIdx?_cons, h2', and_false,
          decide_False, Bool.false_eq_true, List.findIdx?_succ, zero_add]
        rw [ih true]
        cases rest.findIdx?
            (fun e => decide (overlap c e > maxOverlap ∧ e.response < c.response)) <;> simp
    · simp only [nmsLoop, h1, if_false, List.findIdx?_cons, false_and,
        decide_False, Bool.false_eq_true, List.findIdx?_succ, zero_add]
      rw [ih b]
      cases rest.findIdx?
          (fun e => decide (overlap c e > maxOverlap ∧ e.response < c.response)) <;> simp

theorem mem_nmsLoop_snd (overlap : KeyPoint → KeyPoint → ℚ) (c : KeyPoint)
    (ks : List KeyPoint) (b : Bool) (x : KeyPoint)
    (hx : x ∈ (nmsLoop overlap c ks b).2) : x ∈ ks ∨ x = c := by
  induction ks generalizing b with
  | nil => simp [nmsLoop] at hx
  | cons e rest ih =>
    by_cases h1 : overlap c e > maxOverlap
    · by_cases h2 : c.response > e.response
      · simp only [nmsLoop, h1, h2, if_true, List.mem_cons] at hx
        rcases hx with hx | hx
        · exact Or.inr hx
        · exact Or.inl (List.mem_cons_of_mem _ hx)
      · simp only [nmsLoop, h1, h2, if_true, if_false, List.mem_cons] at hx
        rcases hx with hx | hx
        · exact Or.inl (hx ▸ List.mem_cons_self _ _)
        · rcases ih true hx with h | h
          · exact Or.inl (List.mem_cons_of_mem _ h)
          · exact Or.inr h
    · simp only [nmsLoop, h1, if_false, List.mem_cons] at hx
      rcases hx with hx | hx
      · exact Or.inl (hx ▸ List.mem_cons_self _ _)
      · rcases ih b hx with h | h
        · exact Or.inl (List.mem_cons_of_mem _ h)
        · exact Or.inr h

theorem mem_nmsStep (overlap : KeyPoint → KeyPoint → ℚ) (ks : List KeyPoint) (c x : KeyPoint)
    (hx : x ∈ nmsStep overlap ks c) : x ∈ ks ∨ x = c := by
  unfold nmsStep at hx
  split at hx
  · exact mem_nmsLoop_snd overlap c ks false x hx
  · rcases List.mem_append.1 hx with h | h
    · exact mem_nmsLoop_snd overlap c ks false x h
    · exact Or.inr (by simpa using h)

theorem nmsStep_no_conflict (overlap : KeyPoint → KeyPoint → ℚ) (ks : List KeyPoint)
    (c : KeyPoint) (h : ∀ e ∈ ks, ¬ overlap c e > maxOverlap) :
    nmsStep overlap ks c = ks ++ [c] := by
  have hfst : (nmsLoop overlap c ks false).1 = false := by
    rw [nmsLoop_fst]
    simp only [Bool.false_or, List.any_eq_false, decide_eq_true_eq]
    exact h
  have hsnd := nmsLoop_snd_unbeaten overlap c ks false (fun e he hc => h e he hc.1)
  simp [nmsStep, hfst, hsnd]

theorem nmsStep_of_conflict (overlap : KeyPoint → KeyPoint → ℚ) (ks : List KeyPoint)
    (c : KeyPoint) (e : KeyPoint) (he : e ∈ ks) (hc : overlap c e > maxOverlap) :
    nmsStep overlap ks c = (nmsLoop overlap c ks false).2 := by
  have hfst : (nmsLoop overlap c ks false).1 = true := by
    rw [nmsLoop_fst]
    simp only [Bool.false_or, List.any_eq_true, decide_eq_true_eq]
    exact ⟨e, he, hc⟩
  simp [nmsStep, hfst]

theorem nmsLoop_snd_fixed (overlap : KeyPoint → KeyPoint → ℚ) (c : KeyPoint)
    (ks : List KeyPoint) (b : Bool) (h : (nmsLoop overlap c ks b).2 = ks) :
    ∀ e ∈ ks, ¬ (overlap c e > maxOverlap ∧ c.response > e.response) := by
  induction ks generalizing b with
  | nil => simp
  | cons e rest ih =>
    by_cases h1 : overlap c e > maxOverlap
    · by_cases h2 : c.response > e.response
      · simp only [nmsLoop, h1, h2, if_true, List.cons.injEq, and_true] at h
        rw [h] at h2
        exact absurd h2 (lt_irrefl _)
      · simp only [nmsLoop, h1, h2, if_true, if_false, List.cons.injEq, true_and] at h
        intro x hx
        rcases List.mem_cons.1 hx with rfl | hx
        · exact fun hc => h2 hc.2
        · exact ih true h x hx
    · simp only [nmsLoop, h1, if_false, List.cons.injEq, true_and] at h
      intro x hx
      rcases List.mem_cons.1 hx with rfl | hx
      · exact fun hc => h1 hc.1
      · exact ih b h x hx

/-! ## Lemmas on the raster loop -/

theorem foldl_invariant {α β : Type} (P : β → Prop) (f : β → α → β) (l : List α) (b : β)
    (h0 : P b) (hstep : ∀ s a, a ∈ l → P s → P (f s a)) : P (l.foldl f b) := by
  induction l generalizing b with
  | nil => exact h0
  | cons a rest ih =>
    simp only [List.foldl_cons]
    apply ih
    · exact hstep b a (List.mem_cons_self _ _) h0
    · intro s x hx hs
      exact hstep s x (List.mem_cons_of_mem _ hx) hs

theorem detKeypointsHarris_invariant (overlap : KeyPoint → KeyPoint → ℚ) (dst : Mat)
    (P : List KeyPoint → Prop) (ks : List KeyPoint) (h0 : P ks)
    (hstep : ∀ s j i, j < dst.rows → i < dst.cols → P s → P (pixelStep overlap dst j s i)) :
    P (detKeypointsHarris overlap dst ks) := by
  unfold detKeypointsHarris
  apply foldl_invariant P _ _ _ h0
  intro s j hj hs
  unfold rowLoop
  apply foldl_invariant P _ _ _ hs
  intro s2 i hi hs2
  exact hstep s2 j i (List.mem_range.1 hj) (List.mem_range.1 hi) hs2

theorem castInt_gt_minResponse_iff (v : ℚ) : castInt v > minResponse ↔ v ≥ 101 := by
  unfold castInt minResponse
  by_cases hv : 0 ≤ v
  · simp only [hv, if_true]
    constructor
    · intro h
      have h2 : (101 : Int) ≤ ⌊v⌋ := by omega
      have h3 := Int.le_floor.1 h2
      simpa using h3
    · intro h
      have h2 : (101 : Int) ≤ ⌊v⌋ := Int.le_floor.2 (by simpa using h)
      omega
  · simp only [hv, if_false]
    have hneg : v ≤ ((0 : Int) : ℚ) := by
      simp only [Int.cast_zero]
      exact le_of_lt (not_le.1 hv)
    have hceil : ⌈v⌉ ≤ 0 := Int.ceil_le.2 hneg
    constructor
    · intro h
      omega
    · intro h
      exact absurd (le_trans (by norm_num : (0 : ℚ) ≤ 101) h) hv

theorem newKeyPointAt_of_ge (dst : Mat) (j i : Nat) (h : dst.atFloat j i ≥ 101) :
    newKeyPointAt dst j i = some (harrisKeyPoint i j (castInt (dst.atFloat j i))) := by
  have hc := (castInt_gt_minResponse_iff (dst.atFloat j i)).2 h
  simp only [newKeyPointAt, hc, if_true, harrisKeyPoint]

theorem newKeyPointAt_of_lt (dst : Mat) (j i : Nat) (h : dst.atFloat j i < 101) :
    newKeyPointAt dst j i = none := by
  have hc : ¬ castInt (dst.atFloat j i) > minResponse :=
    fun hc => absurd ((castInt_gt_minResponse_iff _).1 hc) (not_le.2 h)
  simp only [newKeyPointAt, hc, if_false]

theorem newKeyPointAt_response (dst : Mat) (j i : Nat) (k : KeyPoint)
    (h : newKeyPointAt dst j i = some k) : k.response > (minResponse : ℚ) := by
  unfold newKeyPointAt at h
  by_cases hc : castInt (dst.atFloat j i) > minResponse
  · simp only [hc, if_true, Option.some.injEq] at h
    rw [← h]
    show ((castInt (dst.atFloat j i) : Int) : ℚ) > (minResponse : ℚ)
    exact Int.cast_lt.2 hc
  · simp only [hc, if_false] at h
    exact Option.noConfusion h

/-! ## Lemmas on the recorded scan -/

theorem nmsLoop_snd_length (overlap : KeyPoint → KeyPoint → ℚ) (c : KeyPoint)
    (ks : List KeyPoint) (b : Bool) :
    (nmsLoop overlap c ks b).2.length = ks.length := by
  rw [nmsLoop_snd_rule]
  cases ks.findIdx?
      (fun e => decide (overlap c e > maxOverlap ∧ e.response < c.response)) <;> simp

theorem nmsStep_append_no_conflict (overlap : KeyPoint → KeyPoint → ℚ) (ks : List KeyPoint)
    (c k : KeyPoint) (h : nmsStep overlap ks c = ks ++ [k]) :
    k = c ∧ ∀ e ∈ ks, overlap c e ≤ maxOverlap := by
  have hno : ∀ e ∈ ks, ¬ overlap c e > maxOverlap := by
    intro e he hc
    have hlen := congrArg List.length h
    rw [nmsStep_of_conflict overlap ks c e he hc, nmsLoop_snd_length] at hlen
    simp at hlen
  rw [nmsStep_no_conflict overlap ks c hno] at h
  have hk : c = k := by simpa using h
  exact ⟨hk.symm, fun e he => not_lt.1 (hno e he)⟩

theorem foldl_raster (overlap : KeyPoint → KeyPoint → ℚ) (dst : Mat) (js : List Nat)
    (ks : List KeyPoint) :
    js.foldl (rowLoop overlap dst) ks
      = (js.flatMap (fun j => (List.range dst.cols).map (fun i => (j, i)))).foldl
          (fun keypoints p => pixelStep overlap dst p.1 keypoints p.2) ks := by
  induction js generalizing ks with
  | nil => simp
  | cons j rest ih =>
    simp only [List.foldl_cons, List.flatMap_cons, List.foldl_append, List.foldl_map]
    rw [ih]
    rfl

theorem detKeypointsHarris_eq_foldl_raster (overlap : KeyPoint → KeyPoint → ℚ) (dst : Mat)
    (ks : List KeyPoint) :
    detKeypointsHarris overlap dst ks
      = (rasterOrder dst).foldl
          (fun keypoints p => pixelStep overlap dst p.1 keypoints p.2) ks :=
  foldl_raster overlap dst (List.range dst.rows) ks

theorem scanFirst_of_length_le (overlap : KeyPoint → KeyPoint → ℚ) (dst : Mat) (n : Nat)
    (hn : (rasterOrder dst).length ≤ n) :
    scanFirst overlap dst n = detKeypointsHarris overlap dst [] := by
  rw [detKeypointsHarris_eq_foldl_raster, scanFirst, List.take_of_length_le hn]

theorem scanFirst_succ (overlap : KeyPoint → KeyPoint → ℚ) (dst : Mat) (n : Nat) :
    scanFirst overlap dst (n + 1)
      = match (rasterOrder dst)[n]? with
        | some p => pixelStep overlap dst p.1 (scanFirst overlap dst n) p.2
        | none => scanFirst overlap dst n := by
  unfold scanFirst
  rw [List.take_succ, List.foldl_append]
  cases (rasterOrder dst)[n]? <;> simp

theorem nmsLoopTraced_erase (overlap : KeyPoint → KeyPoint → ℚ) (c : KeyPoint) (t : Nat)
    (ws : List Written) (b : Bool) :
    (nmsLoopTraced overlap c t ws b).1 = (nmsLoop overlap c (ws.map Written.kp) b).1
      ∧ (nmsLoopTraced overlap c t ws b).2.map Written.kp
          = (nmsLoop overlap c (ws.map Written.kp) b).2 := by
  induction ws generalizing b with
  | nil => simp [nmsLoopTraced, nmsLoop]
  | cons w rest ih =>
    by_cases h1 : overlap c w.kp > maxOverlap
    · by_cases h2 : c.response > w.kp.response
      · simp [nmsLoopTraced, nmsLoop, h1, h2]
      · simp [nmsLoopTraced, nmsLoop, h1, h2, (ih true).1, (ih true).2]
    · simp [nmsLoopTraced, nmsLoop, h1, (ih b).1, (ih b).2]

theorem nmsStepTraced_erase (overlap : KeyPoint → KeyPoint → ℚ) (ws : List Written)
    (c : KeyPoint) (t : Nat) :
    (nmsStepTraced overlap ws c t).map Written.kp = nmsStep overlap (ws.map Written.kp) c := by
  unfold nmsStepTraced nmsStep
  rw [(nmsLoopTraced_erase overlap c t ws false).1]
  split
  · exact (nmsLoopTraced_erase overlap c t ws false).2
  · simp [(nmsLoopTraced_erase overlap c t ws false).2]

theorem pixelStepTraced_erase (overlap : KeyPoint → KeyPoint → ℚ) (dst : Mat)
    (ws : List Written) (t : Nat) (p : Nat × Nat) :
    (pixelStepTraced overlap dst ws t p).map Written.kp
      = pixelStep overlap dst p.1 (ws.map Written.kp) p.2 := by
  unfold pixelStepTraced pixelStep
  cases newKeyPointAt dst p.1 p.2 with
  | none => rfl
  | some c => exact nmsStepTraced_erase overlap ws c t

theorem scanTracedFrom_erase (overlap : KeyPoint → KeyPoint → ℚ) (dst : Mat)
    (ps : List (Nat × Nat)) (t : Nat) (ws : List Written) :
    (scanTracedFrom overlap dst ps t ws).map Written.kp
      = ps.foldl (fun keypoints p => pixelStep overlap dst p.1 keypoints p.2)
          (ws.map Written.kp) := by
  induction ps generalizing t ws with
  | nil => simp [scanTracedFrom]
  | cons p rest ih =>
    simp only [scanTracedFrom, List.foldl_cons]
    rw [ih, pixelStepTraced_erase]

theorem scanTraced_erase (overlap : KeyPoint → KeyPoint → ℚ) (dst : Mat) :
    (scanTraced overlap dst).map Written.kp = detKeypointsHarris overlap dst [] := by
  rw [detKeypointsHarris_eq_foldl_raster, scanTraced, scanTracedFrom_erase]
  rfl

theorem mem_nmsLoopTraced_snd (overlap : KeyPoint → KeyPoint → ℚ) (c : KeyPoint) (t : Nat)
    (ws : List Written) (b : Bool) (w : Written)
    (hw : w ∈ (nmsLoopTraced overlap c t ws b).2) :
    w ∈ ws ∨ w = { kp := c, time := t, appended := false } := by
  induction ws generalizing b with
  | nil => simp [nmsLoopTraced] at hw
  | cons e rest ih =>
    by_cases h1 : overlap c e.kp > maxOverlap
    · by_cases h2 : c.response > e.kp.response
      · simp only [nmsLoopTraced, h1, h2, if_true, List.mem_cons] at hw
        rcases hw with hw | hw
        · exact Or.inr hw
        · exact Or.inl (List.mem_cons_of_mem _ hw)
      · simp only [nmsLoopTraced, h1, h2, if_true, if_false, List.mem_cons] at hw
        rcases hw with hw | hw
        · exact Or.inl (hw ▸ List.mem_cons_self _ _)
        · rcases ih true hw with h | h
          · exact Or.inl (List.mem_cons_of_mem _ h)
          · exact Or.inr h
    · simp only [nmsLoopTraced, h1, if_false, List.mem_cons] at hw
      rcases hw with hw | hw
      · exact Or.inl (hw ▸ List.mem_cons_self _ _)
      · rcases ih b hw with h | h
        · exact Or.inl (List.mem_cons_of_mem _ h)
        · exact Or.inr h

theorem mem_nmsStepTraced (overlap : KeyPoint → KeyPoint → ℚ) (ws : List Written)
    (c : KeyPoint) (t : Nat) (w : Written) (hw : w ∈ nmsStepTraced overlap ws c t) :
    w ∈ ws ∨ w = { kp := c, time := t, appended := false }
      ∨ (w = { kp := c, time := t, appended := true }
          ∧ ∀ a ∈ ws, overlap c a.kp ≤ maxOverlap) := by
  unfold nmsStepTraced at hw
  split at hw
  · rcases mem_nmsLoopTraced_snd overlap c t ws false w hw with h | h
    · exact Or.inl h
    · exact Or.inr (Or.inl h)
  · rename_i hfst
    rcases List.mem_append.1 hw with h | h
    · rcases mem_nmsLoopTraced_snd overlap c t ws false w h with h | h
      · exact Or.inl h
      · exact Or.inr (Or.inl h)
    · refine Or.inr (Or.inr ⟨by simpa using h, ?_⟩)
      rw [(nmsLoopTraced_erase overlap c t ws false).1, nmsLoop_fst] at hfst
      simp only [Bool.false_or, Bool.not_eq_true, List.any_eq_false, List.mem_map,
        decide_eq_true_eq] at hfst
      intro a ha
      exact not_lt.1 (hfst a.kp ⟨a, ha, rfl⟩)

theorem tracedInv_pixelStep (overlap : KeyPoint → KeyPoint → ℚ) (dst : Mat) (t : Nat)
    (ws : List Written) (p : Nat × Nat) (h : TracedInv overlap t ws) :
    TracedInv overlap (t + 1) (pixelStepTraced overlap dst ws t p) := by
  unfold pixelStepTraced
  cases newKeyPointAt dst p.1 p.2 with
  | none => exact ⟨fun w hw => Nat.lt_succ_of_lt (h.1 w hw), h.2⟩
  | some c =>
    have hmem := mem_nmsStepTraced overlap ws c t
    simp only
    constructor
    · intro w hw
      rcases hmem w hw with hw | hw | ⟨hw, _⟩
      · exact Nat.lt_succ_of_lt (h.1 w hw)
      · rw [hw]; exact Nat.lt_succ_self t
      · rw [hw]; exact Nat.lt_succ_self t
    · intro a ha b hb hlt happ
      rcases hmem b hb with hb | hb | ⟨hb, hno⟩
      · rcases hmem a ha with ha | ha | ⟨ha, _⟩
        · exact h.2 a ha b hb hlt happ
        · have := h.1 b hb
          rw [ha] at hlt
          simp only at hlt
          omega
        · have := h.1 b hb
          rw [ha] at hlt
          simp only at hlt
          omega
      · rw [hb] at happ
        simp at happ
      · rw [hb] at hlt ⊢
        simp only at hlt ⊢
        rcases hmem a ha with ha | ha | ⟨ha, _⟩
        · exact hno a ha
        · rw [ha] at hlt
          simp only at hlt
          omega
        · rw [ha] at hlt
          simp only at hlt
          omega

theorem tracedInv_scanTracedFrom (overlap : KeyPoint → KeyPoint → ℚ) (dst : Mat)
    (ps : List (Nat × Nat)) (t : Nat) (ws : List Written) (h : TracedInv overlap t ws) :
    TracedInv overlap (t + ps.length) (scanTracedFrom overlap dst ps t ws) := by
  induction ps generalizing t ws with
  | nil => simpa [scanTracedFrom] using h
  | cons p rest ih =>
    simp only [scanTracedFrom, List.length_cons]
    have := ih (t + 1) _ (tracedInv_pixelStep overlap dst t ws p h)
    rw [show t + (rest.length + 1) = t + 1 + rest.length by omega]
    exact this

/-! ## Ratio-test selection: results -/

/-- C1: in ratio-test mode with the output vector empty on entry and the ratio
0.8, for every sequence of (best, second) candidate pairs the output is exactly
the sequence of the `best` matches of the pairs with
`best.distance < ratio * second.distance`, in input order: a match is in the
output if and only if it is the best match of a pair for which the inequality
holds, and the output is a subsequence of the best matches in input order. -/
theorem matchDescriptorsKNN_output_is_ratio_filter (pairs : List (DMatch × DMatch)) :
    minDescDistRatio = 8 / 10
      ∧ matchDescriptorsKNN (pairs.map pairToList) []
          = KnnResult.returned
              ((pairs.filter
                (fun p => decide (p.1.distance < minDescDistRatio * p.2.distance))).map Prod.fst)
              (sizeSub pairs.length (keptBest pairs).length)
      ∧ (∀ m, m ∈ keptBest pairs
          ↔ ∃ p ∈ pairs, p.1 = m ∧ p.1.distance < minDescDistRatio * p.2.distance)
      ∧ List.Sublist (keptBest pairs) (pairs.map Prod.fst) := by
  refine ⟨rfl, ?_, ?_, ?_⟩
  · have h := knnLoop_pairs pairs []
    simp only [List.nil_append] at h
    simp only [matchDescriptorsKNN, h, List.length_map]
    rfl
  · intro m
    simp only [keptBest, List.mem_map, List.mem_filter, passesRatioTest, decide_eq_true_eq]
    constructor
    · rintro ⟨p, ⟨hp, hlt⟩, rfl⟩
      exact ⟨p, hp, rfl, hlt⟩
    · rintro ⟨p, hp, rfl, hlt⟩
      exact ⟨p, ⟨hp, hlt⟩, rfl⟩
  · exact List.Sublist.map _ (List.filter_sublist _)

/-- C7, as the code behaves: the loop has no check of the number of neighbours
and no error value.  When the first entry with fewer than 2 neighbours comes
after the well-formed pairs `pre`, the best matches of the pairs of `pre` that
pass the ratio test have already been pushed to the output vector when line 43
indexes that entry beyond its size, where the run has no defined result. -/
theorem matchDescriptorsKNN_degenerate_entry (pre : List (DMatch × DMatch)) (e : List DMatch)
    (post : List (List DMatch)) (he : e.length < 2) :
    matchDescriptorsKNN (pre.map pairToList ++ e :: post) []
      = KnnResult.undefinedAccess (keptBest pre) := by
  have h := knnLoop_pairs_then pre (e :: post) []
  rw [knnLoop_short_entry e post _ he] at h
  simp only [List.nil_append] at h
  simp only [matchDescriptorsKNN, h]

/-- Witness of `matchDescriptorsKNN_degenerate_entry`: a passing pair followed by
an entry with one neighbour. -/
theorem matchDescriptorsKNN_degenerate_entry_witness :
    matchDescriptorsKNN
        ([(matchAt 0 3 10, matchAt 0 4 20)].map pairToList ++ [matchAt 1 3 15] :: [])
        []
      = KnnResult.undefinedAccess (keptBest [(matchAt 0 3 10, matchAt 0 4 20)]) :=
  matchDescriptorsKNN_degenerate_entry [(matchAt 0 3 10, matchAt 0 4 20)] [matchAt 1 3 15] []
    (by decide)

/-- C7, counterexample: on a well-formed passing pair followed by an entry with
a single neighbour, the run ends in the unchecked access with the best match of
the first entry already in the output vector: there is partial output, and no
error value. -/
theorem matchDescriptorsKNN_partial_output :
    (∃ e ∈ [[matchAt 0 3 10, matchAt 0 4 20], [matchAt 1 3 15]], List.length e < 2)
      ∧ matchDescriptorsKNN [[matchAt 0 3 10, matchAt 0 4 20], [matchAt 1 3 15]] []
          = KnnResult.undefinedAccess [matchAt 0 3 10]
      ∧ [matchAt 0 3 10] ≠ ([] : List DMatch) := by
  refine ⟨⟨[matchAt 1 3 15], by simp, by decide⟩, by decide!, by simp⟩

/-- C8: in ratio-test mode with the output vector empty on entry, for every
sequence of (best, second) candidate pairs (of a length a `size_t` holds) the
number printed as `# keypoints removed` is `inputCount - outputCount` without
wrap-around (`outputCount ≤ inputCount`), and it is the number of pairs that
fail `best.distance < ratio * second.distance`. -/
theorem matchDescriptorsKNN_removed_count (pairs : List (DMatch × DMatch))
    (hsize : pairs.length < sizeModulus) :
    ∃ out removed,
      matchDescriptorsKNN (pairs.map pairToList) [] = KnnResult.returned out removed
        ∧ out.length ≤ (pairs.map pairToList).length
        ∧ (removed : Int) = ((pairs.map pairToList).length : Int) - (out.length : Int)
        ∧ removed
            = (pairs.filter
                (fun p => decide (¬ p.1.distance < minDescDistRatio * p.2.distance))).length := by
  have h := knnLoop_pairs pairs []
  simp only [List.nil_append] at h
  have hle := keptBest_length_le pairs
  have hadd := keptBest_length_add pairs
  have hfilter : (pairs.filter (fun p => !passesRatioTest p))
      = pairs.filter (fun p => decide (¬ p.1.distance < minDescDistRatio * p.2.distance)) := by
    congr 1
    funext p
    by_cases hp : p.1.distance < minDescDistRatio * p.2.distance <;> simp [passesRatioTest, hp]
  refine ⟨keptBest pairs, sizeSub pairs.length (keptBest pairs).length, ?_, ?_, ?_, ?_⟩
  · simp only [matchDescriptorsKNN, h, List.length_map]
  · simpa using hle
  · rw [sizeSub_of_le _ _ hle hsize]
    simp only [List.length_map]
    omega
  · rw [sizeSub_of_le _ _ hle hsize, ← hfilter]
    omega

/-- Witness of `matchDescriptorsKNN_removed_count` (Scenario C): the pairs
`[(10, 20), (15, 16)]` give the output `[match with distance 10]` and the
removed-count 1. -/
theorem matchDescriptorsKNN_removed_count_witness :
    matchDescriptorsKNN
        [[matchAt 0 3 10, matchAt 0 4 20], [matchAt 1 5 15, matchAt 1 6 16]] []
        = KnnResult.returned [matchAt 0 3 10] 1
      ∧ ∃ out removed,
        matchDescriptorsKNN
            ([(matchAt 0 3 10, matchAt 0 4 20), (matchAt 1 5 15, matchAt 1 6 16)].map pairToList) []
          = KnnResult.returned out removed
        ∧ out.length
            ≤ ([(matchAt 0 3 10, matchAt 0 4 20), (matchAt 1 5 15, matchAt 1 6 16)].map
                pairToList).length
        ∧ (removed : Int)
            = (([(matchAt 0 3 10, matchAt 0 4 20), (matchAt 1 5 15, matchAt 1 6 16)].map
                pairToList).length : Int) - (out.length : Int)
        ∧ removed
            = ([(matchAt 0 3 10, matchAt 0 4 20), (matchAt 1 5 15, matchAt 1 6 16)].filter
                (fun p => decide (¬ p.1.distance < minDescDistRatio * p.2.distance))).length :=
  ⟨by decide!,
    matchDescriptorsKNN_removed_count
      [(matchAt 0 3 10, matchAt 0 4 20), (matchAt 1 5 15, matchAt 1 6 16)] (by decide)⟩

/-! ## One NMS step: results -/

/-- C10: one NMS step of the code is the three-case rule `nmsStepRule`: the
first stored keypoint that both overlaps the candidate beyond `maxOverlap` and
has a smaller response is replaced by the candidate, all other entries
unchanged; if there is none, the sequence is unchanged when some stored keypoint
overlaps the candidate beyond `maxOverlap`; in the remaining case the candidate
is appended.  In particular the scan does not stop at a conflicting entry `e`
whose response is not smaller than the candidate's: a later conflicting entry
`x` with a smaller response (the first such) is replaced. -/
theorem nmsStep_eq_nmsStepRule (overlap : KeyPoint → KeyPoint → ℚ) (ks : List KeyPoint)
    (c : KeyPoint) :
    nmsStep overlap ks c = nmsStepRule overlap ks c
      ∧ ∀ pre e mid x post, ks = pre ++ e :: (mid ++ x :: post) →
          (∀ y ∈ pre, overlap c y ≤ maxOverlap) →
          overlap c e > maxOverlap → e.response ≥ c.response →
          (∀ y ∈ mid, ¬ (overlap c y > maxOverlap ∧ y.response < c.response)) →
          overlap c x > maxOverlap → x.response < c.response →
          nmsStep overlap ks c = pre ++ e :: (mid ++ c :: post) := by
  constructor
  · unfold nmsStep nmsStepRule
    rw [nmsLoop_fst, nmsLoop_snd_rule]
    simp only [Bool.false_or]
    cases hidx : ks.findIdx?
        (fun e => decide (overlap c e > maxOverlap ∧ e.response < c.response)) with
    | none => simp
    | some idx =>
      have hany : ks.any (fun e => decide (overlap c e > maxOverlap)) = true := by
        by_contra hno
        have hnone : ks.findIdx?
            (fun e => decide (overlap c e > maxOverlap ∧ e.response < c.response)) = none := by
          rw [List.findIdx?_eq_none_iff]
          intro x hx
          simp only [Bool.not_eq_true, List.any_eq_false, decide_eq_true_eq] at hno
          simp [hno x hx]
        rw [hnone] at hidx
        exact Option.noConfusion hidx
      simp [hany]
  · intro pre e mid x post hks hpre he1 he2 hmid hx1 hx2
    subst hks
    rw [nmsStep_of_conflict overlap _ c e (by simp) he1]
    have hsplit : pre ++ e :: (mid ++ x :: post) = (pre ++ e :: mid) ++ x :: post := by simp
    have hsplit2 : pre ++ e :: (mid ++ c :: post) = (pre ++ e :: mid) ++ c :: post := by simp
    rw [hsplit, hsplit2]
    apply nmsLoop_snd_beaten overlap c (pre ++ e :: mid) x post false _ hx1 hx2
    intro y hy hc
    rcases List.mem_append.1 hy with hy | hy
    · exact absurd hc.1 (not_lt.2 (hpre y hy))
    · rcases List.mem_cons.1 hy with rfl | hy
      · exact absurd hc.2 (not_lt.2 he2)
      · exact hmid y hy ⟨hc.1, hc.2⟩

/-- Witness of `nmsStep_eq_nmsStepRule`: the stored keypoints
`[k200 at (0,0), k110 at (6,0)]` and the candidate `k150 at (3,1)`; the scan
passes the stronger first entry and replaces the second. -/
theorem nmsStep_eq_nmsStepRule_witness :
    nmsStep circleOverlap [harrisKeyPoint 0 0 200, harrisKeyPoint 6 0 110]
        (harrisKeyPoint 3 1 150)
      = [] ++ harrisKeyPoint 0 0 200 :: ([] ++ harrisKeyPoint 3 1 150 :: []) :=
  (nmsStep_eq_nmsStepRule circleOverlap [harrisKeyPoint 0 0 200, harrisKeyPoint 6 0 110]
      (harrisKeyPoint 3 1 150)).2
    [] (harrisKeyPoint 0 0 200) [] (harrisKeyPoint 6 0 110) [] rfl (by simp) (by decide!)
    (by decide!) (by simp) (by decide!) (by decide!)

/-- C4: when the first stored keypoint whose overlap with the candidate exceeds
`maxOverlap` has a response strictly smaller than the candidate's, the step
returns the sequence with exactly that entry replaced by the candidate at the
same index: the length is unchanged, every other index holds what it held, and
the candidate is not appended. -/
theorem nmsStep_replaces_first_conflict (overlap : KeyPoint → KeyPoint → ℚ)
    (pre : List KeyPoint) (e : KeyPoint) (post : List KeyPoint) (c : KeyPoint)
    (hpre : ∀ x ∈ pre, overlap c x ≤ maxOverlap)
    (h1 : overlap c e > maxOverlap) (h2 : e.response < c.response) :
    nmsStep overlap (pre ++ e :: post) c = pre ++ c :: post
      ∧ (nmsStep overlap (pre ++ e :: post) c).length = (pre ++ e :: post).length
      ∧ (nmsStep overlap (pre ++ e :: post) c)[pre.length]? = some c
      ∧ ∀ n, n ≠ pre.length →
          (nmsStep overlap (pre ++ e :: post) c)[n]? = (pre ++ e :: post)[n]? := by
  have hstep : nmsStep overlap (pre ++ e :: post) c = pre ++ c :: post := by
    rw [nmsStep_of_conflict overlap _ c e (by simp) h1]
    exact nmsLoop_snd_beaten overlap c pre e post false
      (fun x hx hc => absurd hc.1 (not_lt.2 (hpre x hx))) h1 h2
  refine ⟨hstep, ?_, ?_, ?_⟩
  · simp [hstep]
  · rw [hstep, List.getElem?_append_right (Nat.le_refl _)]
    simp
  · intro n hn
    rw [hstep]
    rcases Nat.lt_or_gt_of_ne hn with hlt | hgt
    · rw [List.getElem?_append_left hlt, List.getElem?_append_left hlt]
    · rw [List.getElem?_append_right (Nat.le_of_lt hgt),
        List.getElem?_append_right (Nat.le_of_lt hgt)]
      obtain ⟨m, hm⟩ : ∃ m, n - pre.length = m + 1 := ⟨n - pre.length - 1, by omega⟩
      rw [hm]
      simp

/-- Witness of `nmsStep_replaces_first_conflict` (Scenario B): the set `[k50]`
and an identically placed candidate of response 80 give `[k80]`. -/
theorem nmsStep_replaces_first_conflict_witness :
    nmsStep circleOverlap [harrisKeyPoint 0 0 50] (harrisKeyPoint 0 0 80)
        = [harrisKeyPoint 0 0 80]
      ∧ maxOverlap = 0 :=
  ⟨(nmsStep_replaces_first_conflict circleOverlap [] (harrisKeyPoint 0 0 50) []
      (harrisKeyPoint 0 0 80) (by simp) (by decide!) (by decide!)).1, rfl⟩

/-- C3, as the code behaves: when the first stored keypoint whose overlap with
the candidate exceeds `maxOverlap` has a response greater than or equal to the
candidate's, the scan goes on; the sequence after the step is identical to the
sequence before it if and only if no later entry both overlaps the candidate
beyond `maxOverlap` and has a strictly smaller response.  In either case the
candidate is not appended. -/
theorem nmsStep_discards_iff_unbeaten (overlap : KeyPoint → KeyPoint → ℚ)
    (pre : List KeyPoint) (e : KeyPoint) (post : List KeyPoint) (c : KeyPoint)
    (hpre : ∀ x ∈ pre, overlap c x ≤ maxOverlap)
    (h1 : overlap c e > maxOverlap) (h2 : e.response ≥ c.response) :
    (nmsStep overlap (pre ++ e :: post) c = pre ++ e :: post
        ↔ ∀ x ∈ post, overlap c x > maxOverlap → x.response ≥ c.response)
      ∧ (nmsStep overlap (pre ++ e :: post) c).length = (pre ++ e :: post).length := by
  have hstep := nmsStep_of_conflict overlap (pre ++ e :: post) c e (by simp) h1
  refine ⟨?_, ?_⟩
  · rw [hstep]
    constructor
    · intro hfix x hx hc
      have := nmsLoop_snd_fixed overlap c _ false hfix x (by simp [hx])
      exact not_lt.1 (fun hlt => this ⟨hc, hlt⟩)
    · intro hpost
      apply nmsLoop_snd_unbeaten
      intro x hx hc
      rcases List.mem_append.1 hx with hx | hx
      · exact absurd hc.1 (not_lt.2 (hpre x hx))
      · rcases List.mem_cons.1 hx with rfl | hx
        · exact absurd hc.2 (not_lt.2 h2)
        · exact absurd hc.2 (not_lt.2 (hpost x hx hc.1))
  · rw [hstep, nmsLoop_snd_rule]
    cases (pre ++ e :: post).findIdx?
        (fun e => decide (overlap c e > maxOverlap ∧ e.response < c.response)) <;> simp

/-- Witness of `nmsStep_discards_iff_unbeaten`: a candidate of response 150 on
top of a stored keypoint of response 200 is discarded. -/
theorem nmsStep_discards_iff_unbeaten_witness :
    (nmsStep circleOverlap ([] ++ harrisKeyPoint 0 0 200 :: [harrisKeyPoint 6 0 110])
          (harrisKeyPoint 0 0 150)
        = [] ++ harrisKeyPoint 0 0 200 :: [harrisKeyPoint 6 0 110]
        ↔ ∀ x ∈ [harrisKeyPoint 6 0 110],
            circleOverlap (harrisKeyPoint 0 0 150) x > maxOverlap
              → x.response ≥ (harrisKeyPoint 0 0 150).response)
      ∧ (nmsStep circleOverlap ([] ++ harrisKeyPoint 0 0 200 :: [harrisKeyPoint 6 0 110])
          (harrisKeyPoint 0 0 150)).length
        = ([] ++ harrisKeyPoint 0 0 200 :: [harrisKeyPoint 6 0 110]).length :=
  nmsStep_discards_iff_unbeaten circleOverlap [] (harrisKeyPoint 0 0 200)
    [harrisKeyPoint 6 0 110] (harrisKeyPoint 0 0 150) (by simp) (by decide!) (by decide!)

/-- C3, counterexample: with the stored keypoints `[k200 at (0,0), k110 at (6,0)]`
and the candidate `k150 at (3,1)`, the first stored keypoint overlapping the
candidate is `k200`, whose response is not smaller than the candidate's; the
scan goes on and replaces the later `k110`, so the sequence is changed.  The
raster loop reaches this state on `surfaceStrongWeakMid`. -/
theorem nmsStep_scan_goes_on :
    circleOverlap (harrisKeyPoint 3 1 150) (harrisKeyPoint 0 0 200) > maxOverlap
      ∧ (harrisKeyPoint 0 0 200).response ≥ (harrisKeyPoint 3 1 150).response
      ∧ nmsStep circleOverlap [harrisKeyPoint 0 0 200, harrisKeyPoint 6 0 110]
          (harrisKeyPoint 3 1 150)
          = [harrisKeyPoint 0 0 200, harrisKeyPoint 3 1 150]
      ∧ nmsStep circleOverlap [harrisKeyPoint 0 0 200, harrisKeyPoint 6 0 110]
          (harrisKeyPoint 3 1 150)
          ≠ [harrisKeyPoint 0 0 200, harrisKeyPoint 6 0 110]
      ∧ detKeypointsHarris circleOverlap surfaceStrongWeakMid []
          = [harrisKeyPoint 0 0 200, harrisKeyPoint 3 1 150] := by
  refine ⟨by decide!, by decide!, by decide!, by decide!, by decide!⟩

/-! ## Raster loop: results -/

/-- C2: started from an empty keypoint sequence, for every response surface
every keypoint of the sequence returned by the raster loop has a response
strictly greater than `minResponse` = 100, whether it was appended or written by
in-place replacement. -/
theorem detKeypointsHarris_response_gt_minResponse (overlap : KeyPoint → KeyPoint → ℚ)
    (dst : Mat) (k : KeyPoint) (hk : k ∈ detKeypointsHarris overlap dst []) :
    k.response > (minResponse : ℚ) ∧ k.response > 100 := by
  have hall : ∀ x ∈ detKeypointsHarris overlap dst [], x.response > (minResponse : ℚ) := by
    apply detKeypointsHarris_invariant overlap dst
      (fun s => ∀ x ∈ s, x.response > (minResponse : ℚ))
    · intro x hx
      exact absurd hx (List.not_mem_nil _)
    · intro s j i _ _ hs x hx
      unfold pixelStep at hx
      cases hc : newKeyPointAt dst j i with
      | none =>
        rw [hc] at hx
        exact hs x hx
      | some c =>
        rw [hc] at hx
        rcases mem_nmsStep overlap s c x hx with h | h
        · exact hs x h
        · rw [h]
          exact newKeyPointAt_response dst j i c hc
  have h := hall k hk
  refine ⟨h, ?_⟩
  simpa [minResponse] using h

/-- Witness of `detKeypointsHarris_response_gt_minResponse`: the keypoint written
by replacement on `surfaceStrongWeakMid`. -/
theorem detKeypointsHarris_response_gt_minResponse_witness :
    harrisKeyPoint 3 1 150 ∈ detKeypointsHarris circleOverlap surfaceStrongWeakMid []
      ∧ (harrisKeyPoint 3 1 150).response > (minResponse : ℚ)
      ∧ (harrisKeyPoint 3 1 150).response > 100 :=
  ⟨by decide!,
    detKeypointsHarris_response_gt_minResponse circleOverlap surfaceStrongWeakMid
      (harrisKeyPoint 3 1 150) (by decide!)⟩

/-- C9: for every response surface with zero pixels, or in which no pixel value
exceeds `minResponse`, the raster loop leaves the keypoint sequence as it was on
entry; started from the empty sequence it returns the empty sequence.  The loop
is a total function: there is no error outcome. -/
theorem detKeypointsHarris_empty (overlap : KeyPoint → KeyPoint → ℚ) (dst : Mat)
    (h : dst.rows = 0 ∨ dst.cols = 0
      ∨ ∀ j i, j < dst.rows → i < dst.cols → ¬ dst.atFloat j i > (minResponse : ℚ)) :
    detKeypointsHarris overlap dst [] = []
      ∧ ∀ ks, detKeypointsHarris overlap dst ks = ks := by
  have hpix : ∀ j i, j < dst.rows → i < dst.cols → dst.atFloat j i < 101 := by
    intro j i hj hi
    rcases h with h | h | h
    · omega
    · omega
    · have := not_lt.1 (h j i hj hi)
      simp only [minResponse, Int.cast_ofNat] at this
      exact lt_of_le_of_lt this (by norm_num)
  have hall : ∀ ks, detKeypointsHarris overlap dst ks = ks := by
    intro ks
    apply detKeypointsHarris_invariant overlap dst (fun s => s = ks) ks rfl
    intro s j i hj hi hs
    simp only [pixelStep, newKeyPointAt_of_lt dst j i (hpix j i hj hi)]
    exact hs
  exact ⟨hall [], hall⟩

/-- Witness of `detKeypointsHarris_empty` (Scenario A): the all-zeros surface. -/
theorem detKeypointsHarris_empty_witness :
    detKeypointsHarris circleOverlap surfaceZeros [] = []
      ∧ ∀ ks, detKeypointsHarris circleOverlap surfaceZeros ks = ks :=
  detKeypointsHarris_empty circleOverlap surfaceZeros
    (Or.inr (Or.inr (fun _ _ _ _ => by simp [surfaceZeros, minResponse])))

/-- C6, as the code behaves: the pixel value is truncated to an integer before
the threshold test.  For every response surface and every pixel whose value lies
in 0..255 (not necessarily integral): if the integer part of the value exceeds
`minResponse`, that is if the value is at least 101, the selector constructs a
candidate keypoint for that pixel whose response is the integer part of the
pixel value and whose scale is `2 * apertureSize` = 6; if it does not, that is
if the value is below 101, the pixel yields no candidate. -/
theorem newKeyPointAt_truncates (dst : Mat) (j i : Nat)
    (hrange : 0 ≤ dst.atFloat j i ∧ dst.atFloat j i ≤ 255) :
    (⌊dst.atFloat j i⌋ > minResponse ↔ dst.atFloat j i ≥ 101)
      ∧ (⌊dst.atFloat j i⌋ > minResponse →
          ∃ k, newKeyPointAt dst j i = some k
            ∧ k.response = ((⌊dst.atFloat j i⌋ : Int) : ℚ)
            ∧ k.size = 6)
      ∧ (¬ ⌊dst.atFloat j i⌋ > minResponse → newKeyPointAt dst j i = none) := by
  have hcast : castInt (dst.atFloat j i) = ⌊dst.atFloat j i⌋ := by
    simp [castInt, hrange.1]
  have hiff := castInt_gt_minResponse_iff (dst.atFloat j i)
  rw [hcast] at hiff
  refine ⟨hiff, ?_, ?_⟩
  · intro h
    have hge := hiff.1 h
    refine ⟨_, newKeyPointAt_of_ge dst j i hge, ?_, ?_⟩
    · simp [harrisKeyPoint, hcast]
    · simp [harrisKeyPoint, apertureSize]
  · intro h
    exact newKeyPointAt_of_lt dst j i (not_le.1 (fun hge => h (hiff.2 hge)))

/-- Witness of `newKeyPointAt_truncates`: the pixel value 101.7, which lies in
0..255 and whose integer part 101 exceeds `minResponse`. -/
theorem newKeyPointAt_truncates_witness :
    (0 ≤ (surfaceOnePixel (1017 / 10)).atFloat 0 0
        ∧ (surfaceOnePixel (1017 / 10)).atFloat 0 0 ≤ 255)
      ∧ ⌊(surfaceOnePixel (1017 / 10)).atFloat 0 0⌋ > minResponse
      ∧ ∃ k, newKeyPointAt (surfaceOnePixel (1017 / 10)) 0 0 = some k
          ∧ k.response = ((⌊(surfaceOnePixel (1017 / 10)).atFloat 0 0⌋ : Int) : ℚ)
          ∧ k.size = 6 :=
  ⟨by decide!, by decide!,
    (newKeyPointAt_truncates (surfaceOnePixel (1017 / 10)) 0 0 (by decide!)).2.1 (by decide!)⟩

/-- C6, counterexample: both pixel values lie in 0..255.  The pixel value 100.5
exceeds `minResponse` = 100 and yields no candidate; the pixel value 101.7
yields a candidate whose response is 101, not the pixel value. -/
theorem newKeyPointAt_not_pixel_value :
    (0 ≤ (surfaceOnePixel (201 / 2)).atFloat 0 0
        ∧ (surfaceOnePixel (201 / 2)).atFloat 0 0 ≤ 255)
      ∧ (surfaceOnePixel (201 / 2)).atFloat 0 0 > (minResponse : ℚ)
      ∧ newKeyPointAt (surfaceOnePixel (201 / 2)) 0 0 = none
      ∧ (0 ≤ (surfaceOnePixel (1017 / 10)).atFloat 0 0
        ∧ (surfaceOnePixel (1017 / 10)).atFloat 0 0 ≤ 255)
      ∧ newKeyPointAt (surfaceOnePixel (1017 / 10)) 0 0 = some (harrisKeyPoint 0 0 101)
      ∧ (harrisKeyPoint 0 0 101).response ≠ (surfaceOnePixel (1017 / 10)).atFloat 0 0 := by
  refine ⟨by decide!, by decide!, by decide!, by decide!, by decide!, by decide!⟩

/-- C5, as the code behaves: for every response surface and every number `n` of
pixels already scanned (started from the empty sequence), whenever the next
pixel step writes a keypoint by append, the overlap of that keypoint with every
keypoint held in the sequence at that moment is at most `maxOverlap`.
Consequently, in the final result with the record of the most recent write of
each keypoint, for every two keypoints `a`, `b` such that `b` was appended after
the most recent write of `a`, the overlap of `b` with `a` is at most
`maxOverlap`.  Nothing is stated for keypoints written by replacement. -/
theorem detKeypointsHarris_append_respects_maxOverlap (overlap : KeyPoint → KeyPoint → ℚ)
    (dst : Mat) :
    (∀ n k, scanFirst overlap dst (n + 1) = scanFirst overlap dst n ++ [k] →
        ∀ e ∈ scanFirst overlap dst n, overlap k e ≤ maxOverlap)
      ∧ (∀ n, (rasterOrder dst).length ≤ n →
          scanFirst overlap dst n = detKeypointsHarris overlap dst [])
      ∧ (scanTraced overlap dst).map Written.kp = detKeypointsHarris overlap dst []
      ∧ ∀ a ∈ scanTraced overlap dst, ∀ b ∈ scanTraced overlap dst,
          a.time < b.time → b.appended = true → overlap b.kp a.kp ≤ maxOverlap := by
  refine ⟨?_, scanFirst_of_length_le overlap dst, scanTraced_erase overlap dst, ?_⟩
  · intro n k hk e he
    rw [scanFirst_succ] at hk
    cases hp : (rasterOrder dst)[n]? with
    | none =>
      rw [hp] at hk
      have hlen := congrArg List.length hk
      simp at hlen
    | some p =>
      rw [hp] at hk
      simp only [pixelStep] at hk
      cases hc : newKeyPointAt dst p.1 p.2 with
      | none =>
        rw [hc] at hk
        have hlen := congrArg List.length hk
        simp at hlen
      | some c =>
        rw [hc] at hk
        obtain ⟨hkc, hno⟩ := nmsStep_append_no_conflict overlap _ c k hk
        rw [hkc]
        exact hno e he
  · have hinv := tracedInv_scanTracedFrom overlap dst (rasterOrder dst) 0 []
      ⟨fun w hw => absurd hw (List.not_mem_nil _), fun a ha => absurd ha (List.not_mem_nil _)⟩
    exact hinv.2

/-- Witness of `detKeypointsHarris_append_respects_maxOverlap`: on
`surfaceStrongWeakMid` the second keypoint is appended at raster index 6 and
does not overlap the first. -/
theorem detKeypointsHarris_append_respects_maxOverlap_witness :
    scanFirst circleOverlap surfaceStrongWeakMid (6 + 1)
        = scanFirst circleOverlap surfaceStrongWeakMid 6 ++ [harrisKeyPoint 6 0 110]
      ∧ ∀ e ∈ scanFirst circleOverlap surfaceStrongWeakMid 6,
          circleOverlap (harrisKeyPoint 6 0 110) e ≤ maxOverlap :=
  ⟨by decide!,
    (detKeypointsHarris_append_respects_maxOverlap circleOverlap surfaceStrongWeakMid).1 6
      (harrisKeyPoint 6 0 110) (by decide!)⟩

/-- C5, counterexample: on `surfaceWeakWeakMid` the sequence after 10 pixels is
`[k110 at (0,0), k110 at (6,0)]`; the 11th pixel writes `k150 at (3,1)` in place
of the first entry, and the written keypoint overlaps the other keypoint held in
the sequence.  In the final result `k150` was written (raster index 10) after
the most recent write of `k110 at (6,0)` (raster index 6), and their overlap
exceeds `maxOverlap`. -/
theorem detKeypointsHarris_replacement_overlaps :
    scanFirst circleOverlap surfaceWeakWeakMid 10
        = [harrisKeyPoint 0 0 110, harrisKeyPoint 6 0 110]
      ∧ scanFirst circleOverlap surfaceWeakWeakMid 11
        = [harrisKeyPoint 3 1 150, harrisKeyPoint 6 0 110]
      ∧ circleOverlap (harrisKeyPoint 3 1 150) (harrisKeyPoint 6 0 110) > maxOverlap
      ∧ circleOverlap (harrisKeyPoint 6 0 110) (harrisKeyPoint 3 1 150) > maxOverlap
      ∧ detKeypointsHarris circleOverlap surfaceWeakWeakMid []
        = [harrisKeyPoint 3 1 150, harrisKeyPoint 6 0 110]
      ∧ scanTraced circleOverlap surfaceWeakWeakMid
        = [{ kp := harrisKeyPoint 3 1 150, time := 10, appended := false },
           { kp := harrisKeyPoint 6 0 110, time := 6, appended := true }] := by
  refine ⟨by decide!, by decide!, by decide!, by decide!, by decide!, by decide!⟩

end Matching2D
